import Mathlib

/-!
Verification of the streaming corpus-collection pipeline (`ETL.py` and
`ETL_TURBO.py`).  Python strings are modelled as `List Char`, byte strings as
`List Nat` (each entry < 256), floats appearing in sampling comparisons as
exact rationals (all comparisons the claims touch are exact at the float
values involved), and the external collaborators (tokenizer, language
detector, corpus iterator, PRNG stream) as explicit function parameters.
-/

set_option maxHeartbeats 1000000
set_option maxRecDepth 100000

/-! ### Python string primitives -/

/-- Python `str.isspace` for a single character (Unicode whitespace set used
by `str.strip()`). -/
def pyIsSpace (c : Char) : Bool :=
  let n := c.toNat
  decide ((9 ≤ n ∧ n ≤ 13) ∨ (28 ≤ n ∧ n ≤ 31) ∨ n = 32 ∨ n = 133 ∨ n = 160 ∨
    n = 5760 ∨ (8192 ≤ n ∧ n ≤ 8202) ∨ n = 8232 ∨ n = 8233 ∨ n = 8239 ∨
    n = 8287 ∨ n = 12288)

/-- Python `text.replace(old, new)` for single-character `old`/`new`. -/
def replaceChar (a b : Char) (l : List Char) : List Char :=
  l.map (fun c => if c = a then b else c)

/-- Python `text.strip()`: drop leading and trailing whitespace. -/
def pyStrip (l : List Char) : List Char :=
  ((l.dropWhile pyIsSpace).reverse.dropWhile pyIsSpace).reverse

/-- `clean_text` from ETL.py: `text.replace("\r", " ").replace("\t", " ").strip()`. -/
def clean_text (text : List Char) : List Char :=
  pyStrip (replaceChar '\t' ' ' (replaceChar '\r' ' ' text))

/-- The cleaning step of ETL_TURBO.py line 140: `txt.strip().replace("\n", " ")`. -/
def clean_turbo (txt : List Char) : List Char :=
  replaceChar '\n' ' ' (pyStrip txt)

/-! ### MD5 (RFC 1321), over byte lists, 32-bit words as `Nat` mod `2^32` -/

/-- The 64 MD5 sine-derived round constants. -/
def md5K : List Nat :=
  [0xd76aa478, 0xe8c7b756, 0x242070db, 0xc1bdceee,
   0xf57c0faf, 0x4787c62a, 0xa8304613, 0xfd469501,
   0x698098d8, 0x8b44f7af, 0xffff5bb1, 0x895cd7be,
   0x6b901122, 0xfd987193, 0xa679438e, 0x49b40821,
   0xf61e2562, 0xc040b340, 0x265e5a51, 0xe9b6c7aa,
   0xd62f105d, 0x02441453, 0xd8a1e681, 0xe7d3fbc8,
   0x21e1cde6, 0xc33707d6, 0xf4d50d87, 0x455a14ed,
   0xa9e3e905, 0xfcefa3f8, 0x676f02d9, 0x8d2a4c8a,
   0xfffa3942, 0x8771f681, 0x6d9d6122, 0xfde5380c,
   0xa4beea44, 0x4bdecfa9, 0xf6bb4b60, 0xbebfbc70,
   0x289b7ec6, 0xeaa127fa, 0xd4ef3085, 0x04881d05,
   0xd9d4d039, 0xe6db99e5, 0x1fa27cf8, 0xc4ac5665,
   0xf4292244, 0x432aff97, 0xab9423a7, 0xfc93a039,
   0x655b59c3, 0x8f0ccc92, 0xffeff47d, 0x85845dd1,
   0x6fa87e4f, 0xfe2ce6e0, 0xa3014314, 0x4e0811a1,
   0xf7537e82, 0xbd3af235, 0x2ad7d2bb, 0xeb86d391]

/-- The 64 MD5 per-round left-rotation amounts. -/
def md5S : List Nat :=
  [7, 12, 17, 22, 7, 12, 17, 22, 7, 12, 17, 22, 7, 12, 17, 22,
   5, 9, 14, 20, 5, 9, 14, 20, 5, 9, 14, 20, 5, 9, 14, 20,
   4, 11, 16, 23, 4, 11, 16, 23, 4, 11, 16, 23, 4, 11, 16, 23,
   6, 10, 15, 21, 6, 10, 15, 21, 6, 10, 15, 21, 6, 10, 15, 21]

/-- 32-bit left rotation (argument assumed `< 2^32`, shift `< 32`). -/
def rotl32 (x s : Nat) : Nat :=
  (x * 2 ^ s + x / 2 ^ (32 - s)) % 4294967296

/-- Bitwise complement within 32 bits (for `x < 2^32`). -/
def not32 (x : Nat) : Nat := 4294967295 - x

/-- One MD5 round: state is `(a, b, c, d)`, `M` the 16 message words. -/
def md5Round (M : List Nat) (st : Nat × Nat × Nat × Nat) (i : Nat) :
    Nat × Nat × Nat × Nat :=
  let a := st.1
  let b := st.2.1
  let c := st.2.2.1
  let d := st.2.2.2
  let f :=
    if i < 16 then Nat.lor (Nat.land b c) (Nat.land (not32 b) d)
    else if i < 32 then Nat.lor (Nat.land d b) (Nat.land (not32 d) c)
    else if i < 48 then Nat.xor b (Nat.xor c d)
    else Nat.xor c (Nat.lor b (not32 d))
  let g :=
    if i < 16 then i
    else if i < 32 then (5 * i + 1) % 16
    else if i < 48 then (3 * i + 5) % 16
    else (7 * i) % 16
  let t := (a + f + md5K.getD i 0 + M.getD g 0) % 4294967296
  (d, (b + rotl32 t (md5S.getD i 0)) % 4294967296, b, c)

/-- Process one 64-byte block (given as 16 little-endian words). -/
def md5Block (st : Nat × Nat × Nat × Nat) (M : List Nat) : Nat × Nat × Nat × Nat :=
  let r := (List.range 64).foldl (md5Round M) st
  ((st.1 + r.1) % 4294967296, (st.2.1 + r.2.1) % 4294967296,
   (st.2.2.1 + r.2.2.1) % 4294967296, (st.2.2.2 + r.2.2.2) % 4294967296)

/-- Little-endian 8-byte encoding of a natural number (the length field). -/
def toLE8 (n : Nat) : List Nat :=
  (List.range 8).map (fun i => n / 256 ^ i % 256)

/-- MD5 padding: append `0x80`, zeros to 56 mod 64, then the 64-bit bit length. -/
def md5Pad (msg : List Nat) : List Nat :=
  msg ++ 128 :: List.replicate ((119 - msg.length % 64) % 64) 0 ++ toLE8 (8 * msg.length)

/-- Split a byte list into 64-byte chunks (structural recursion on a fuel
bound; `fuel = l.length` always suffices since every step consumes 64
bytes of a nonempty list). -/
def chunk64Aux : Nat → List Nat → List (List Nat)
  | 0, _ => []
  | fuel + 1, l => if l = [] then [] else l.take 64 :: chunk64Aux fuel (l.drop 64)

/-- Split a byte list into 64-byte chunks. -/
def chunk64 (l : List Nat) : List (List Nat) :=
  chunk64Aux l.length l

/-- The 16 little-endian 32-bit words of a 64-byte block. -/
def blockWords (b : List Nat) : List Nat :=
  (List.range 16).map (fun j =>
    b.getD (4 * j) 0 + b.getD (4 * j + 1) 0 * 256 +
    b.getD (4 * j + 2) 0 * 65536 + b.getD (4 * j + 3) 0 * 16777216)

/-- The four MD5 state words after hashing a byte message. -/
def md5Words (msg : List Nat) : Nat × Nat × Nat × Nat :=
  (chunk64 (md5Pad msg)).foldl (fun st blk => md5Block st (blockWords blk))
    (0x67452301, 0xefcdab89, 0x98badcfe, 0x10325476)

/-- Byte-swap a 32-bit word (little-endian digest bytes read big-endian). -/
def byteswap32 (n : Nat) : Nat :=
  n % 256 * 16777216 + n / 256 % 256 * 65536 + n / 65536 % 256 * 256 + n / 16777216

/-- `int(hashlib.md5(bytes).hexdigest()[:8], 16)`: the leading 32 bits of the
MD5 digest, i.e. the first four digest bytes read big-endian. -/
def md5Leading32 (msg : List Nat) : Nat :=
  byteswap32 (md5Words msg).1

/-- UTF-8 encoding of one character. -/
def utf8Char (c : Char) : List Nat :=
  let n := c.toNat
  if n < 128 then [n]
  else if n < 2048 then [192 + n / 64, 128 + n % 64]
  else if n < 65536 then [224 + n / 4096, 128 + n / 64 % 64, 128 + n % 64]
  else [240 + n / 262144, 128 + n / 4096 % 64, 128 + n / 64 % 64, 128 + n % 64]

/-- UTF-8 encoding of a text (`text.encode("utf-8")`). -/
def utf8Encode (l : List Char) : List Nat :=
  (l.map utf8Char).flatten

/-- `deterministic_sample` from ETL.py: hash the UTF-8 text with MD5, read the
first 8 hex digits as an integer, divide by `0xffffffff`, accept iff `< p`.
The float division is exact at the comparison points the claims use, so it
is modelled by the exact rational `mkRat h 4294967295 = h / 4294967295`. -/
def deterministic_sample (text : List Char) (p : ℚ) : Bool :=
  decide (mkRat (md5Leading32 (utf8Encode text)) 4294967295 < p)

/-! ### ETL.py: checkpoint state, collaborators, main loop -/

/-- The checkpoint state dictionary `{"tokens": ..., "docs": ...}`. -/
structure CollectionState where
  tokens : Nat
  docs : Nat
deriving DecidableEq, Repr

/-- The configuration surface of ETL.py that the loop body reads. -/
structure Args where
  min_chars : Nat
  max_chars : Nat
  sample : ℚ
  lang : Option (List Char)
  tokens : Nat
  repo : List Char

/-- One line of the ETL.py output sink: `{"text", "n_tokens", "repo"}`. -/
structure OutputRecord where
  text : List Char
  n_tokens : Nat
  repo : List Char
deriving DecidableEq, Repr

/-- Everything observable about one run of the ETL.py streaming loop:
final totals, the records appended to the sink this run (in order), the
checkpoint states written (in order), and whether the run ended by quota
(`break`) or by corpus exhaustion. -/
structure RunResult where
  tokens_total : Nat
  docs_total : Nat
  out : List OutputRecord
  saves : List CollectionState
  by_quota : Bool
deriving DecidableEq, Repr

/-- The distinguished label returned by `detect_lang_safe` on detector failure. -/
def unknownLabel : List Char := ['u', 'n', 'k', 'n', 'o', 'w', 'n']

/-- `detect_lang_safe` from ETL.py: run the (fallible) detector on the first
1000 characters; on failure return `"unknown"`. -/
def detect_lang_safe (detect : List Char → Option (List Char)) (text : List Char) :
    List Char :=
  (detect (text.take 1000)).getD unknownLabel

/-- `token_count` from ETL.py: the (fallible) tokenizer's count, or 0 on
failure. -/
def token_count (tok : List Char → Option Nat) (text : List Char) : Nat :=
  (tok text).getD 0

/-- The language gate of ETL.py lines 131-134: active only when a language
is configured; rejects when the (safe) detected label differs. -/
def langReject (lang : Option (List Char)) (detect : List Char → Option (List Char))
    (text : List Char) : Bool :=
  match lang with
  | some l => decide (detect_lang_safe detect text ≠ l)
  | none => false

/-- The checkpoint block of ETL.py lines 153-156: given the updated totals and
the last-saved state, return the new last-saved state together with the list
(empty or singleton) of checkpoint writes performed. -/
def saveStep (tokens_total docs_total : Nat) (state : CollectionState) :
    CollectionState × List CollectionState :=
  if tokens_total / 5000000 ≠ state.tokens / 5000000 then
    (⟨tokens_total, docs_total⟩, [⟨tokens_total, docs_total⟩])
  else (state, [])

/-- The `for row in ds` loop of ETL.py lines 121-159.  `rows` is the corpus
iterator (each row's `text` field, `none` when absent), `detect` and `tok` the
external collaborators, and the three trailing arguments the in-memory
`tokens_total`, `docs_total` and the last-saved checkpoint `state`. -/
def mainLoop (args : Args) (detect : List Char → Option (List Char))
    (tok : List Char → Option Nat) :
    List (Option (List Char)) → Nat → Nat → CollectionState → RunResult
  | [], tokens_total, docs_total, _ =>
    ⟨tokens_total, docs_total, [], [], false⟩
  | row :: rest, tokens_total, docs_total, state =>
    let text := clean_text (row.getD [])
    if text.length < args.min_chars ∨ text.length > args.max_chars then
      mainLoop args detect tok rest tokens_total docs_total state
    else if deterministic_sample text args.sample = false then
      mainLoop args detect tok rest tokens_total docs_total state
    else if langReject args.lang detect text then
      mainLoop args detect tok rest tokens_total docs_total state
    else
      let ntok := token_count tok text
      if ntok = 0 then
        mainLoop args detect tok rest tokens_total docs_total state
      else
        let tokens_total' := tokens_total + ntok
        let docs_total' := docs_total + 1
        let s := saveStep tokens_total' docs_total' state
        if args.tokens ≤ tokens_total' then
          ⟨tokens_total', docs_total', [⟨text, ntok, args.repo⟩], s.2, true⟩
        else
          let r := mainLoop args detect tok rest tokens_total' docs_total' s.1
          ⟨r.tokens_total, r.docs_total, ⟨text, ntok, args.repo⟩ :: r.out,
           s.2 ++ r.saves, r.by_quota⟩

/-- A whole run of ETL.py's `main` after `load_state`: totals start from the
loaded checkpoint, which is also the initial reference for the checkpoint
trigger. -/
def mainRun (args : Args) (detect : List Char → Option (List Char))
    (tok : List Char → Option Nat) (rows : List (Option (List Char)))
    (loaded : CollectionState) : RunResult :=
  mainLoop args detect tok rows loaded.tokens loaded.docs loaded

/-- The per-row accept/reject decision implicit in the loop body of ETL.py:
`none` means some `continue` fired, `some rcd` means the row is emitted as
`rcd`.  Defined separately so that theorems can state that the loop's
per-document decisions depend only on the row (and the fixed configuration
and collaborators), not on totals, checkpoint state, or position. -/
def processRow (args : Args) (detect : List Char → Option (List Char))
    (tok : List Char → Option Nat) (row : Option (List Char)) :
    Option OutputRecord :=
  let text := clean_text (row.getD [])
  if text.length < args.min_chars ∨ text.length > args.max_chars then none
  else if deterministic_sample text args.sample = false then none
  else if langReject args.lang detect text then none
  else
    let ntok := token_count tok text
    if ntok = 0 then none
    else some ⟨text, ntok, args.repo⟩

/-! ### Unfolding lemmas for the loop -/

theorem mainLoop_nil (args : Args) (detect : List Char → Option (List Char))
    (tok : List Char → Option Nat) (tt dt : Nat) (st : CollectionState) :
    mainLoop args detect tok [] tt dt st = ⟨tt, dt, [], [], false⟩ := rfl

theorem mainLoop_cons (args : Args) (detect : List Char → Option (List Char))
    (tok : List Char → Option Nat) (row : Option (List Char))
    (rest : List (Option (List Char))) (tt dt : Nat) (st : CollectionState) :
    mainLoop args detect tok (row :: rest) tt dt st =
      (let text := clean_text (row.getD [])
       if text.length < args.min_chars ∨ text.length > args.max_chars then
         mainLoop args detect tok rest tt dt st
       else if deterministic_sample text args.sample = false then
         mainLoop args detect tok rest tt dt st
       else if langReject args.lang detect text then
         mainLoop args detect tok rest tt dt st
       else
         let ntok := token_count tok text
         if ntok = 0 then
           mainLoop args detect tok rest tt dt st
         else
           let s := saveStep (tt + ntok) (dt + 1) st
           if args.tokens ≤ tt + ntok then
             ⟨tt + ntok, dt + 1, [⟨text, ntok, args.repo⟩], s.2, true⟩
           else
             let r := mainLoop args detect tok rest (tt + ntok) (dt + 1) s.1
             ⟨r.tokens_total, r.docs_total, ⟨text, ntok, args.repo⟩ :: r.out,
              s.2 ++ r.saves, r.by_quota⟩) := rfl

theorem mainLoop_cons_skip (args : Args) (detect : List Char → Option (List Char))
    (tok : List Char → Option Nat) (row : Option (List Char))
    (rest : List (Option (List Char))) (tt dt : Nat) (st : CollectionState)
    (h : processRow args detect tok row = none) :
    mainLoop args detect tok (row :: rest) tt dt st =
      mainLoop args detect tok rest tt dt st := by
  unfold processRow at h
  rw [mainLoop_cons]
  dsimp only
  split
  · rfl
  · split
    · rfl
    · split
      · rfl
      · simp only [*, if_true, if_false] at h
        split
        · rfl
        · simp_all

theorem mainLoop_cons_emit (args : Args) (detect : List Char → Option (List Char))
    (tok : List Char → Option Nat) (row : Option (List Char))
    (rest : List (Option (List Char))) (tt dt : Nat) (st : CollectionState)
    (rcd : OutputRecord)
    (h : processRow args detect tok row = some rcd) :
    mainLoop args detect tok (row :: rest) tt dt st =
      (let s := saveStep (tt + rcd.n_tokens) (dt + 1) st
       if args.tokens ≤ tt + rcd.n_tokens then
         ⟨tt + rcd.n_tokens, dt + 1, [rcd], s.2, true⟩
       else
         let r := mainLoop args detect tok rest (tt + rcd.n_tokens) (dt + 1) s.1
         ⟨r.tokens_total, r.docs_total, rcd :: r.out, s.2 ++ r.saves, r.by_quota⟩) := by
  unfold processRow at h
  rw [mainLoop_cons]
  dsimp only
  split
  · simp_all
  · split
    · simp_all
    · split
      · simp_all
      · simp only [*, if_true, if_false] at h
        split
        · simp_all
        · simp [*] at h
          subst h
          rfl

/-! ### ETL_TURBO.py: batcher, filter/sample stage, token counting, main loop

The TURBO variant samples with `random.random() > args.sample` (Python's
global Mersenne-Twister PRNG).  The PRNG is modelled as an explicit stream
`rng : Nat → ℚ` of successive `random.random()` outputs together with the
index of the next unconsumed value, which is exactly the state the decision
depends on. -/

/-- The configuration surface of ETL_TURBO.py that the loop body reads. -/
structure TArgs where
  quota : Nat
  min_chars : Nat
  max_chars : Nat
  sample : ℚ
  batch_size : Nat

/-- Observable outcome of a TURBO run: final `collected_tokens`, the text
lines written (in order), and whether it returned early by quota. -/
structure TurboResult where
  collected_tokens : Nat
  lines : List (List Char)
  by_quota : Bool
deriving DecidableEq, Repr

/-- `batcher` from ETL_TURBO.py: full chunks of `size`, then the nonempty
remainder (with `size = 0` the buffer never reaches the length test, so the
whole input comes out as one final batch). -/
def batcherAux {α : Type} : Nat → List α → Nat → List (List α)
  | 0, _, _ => []
  | fuel + 1, l, size =>
    match l with
    | [] => []
    | x :: xs =>
      if size = 0 then [x :: xs]
      else (x :: xs).take size :: batcherAux fuel ((x :: xs).drop size) size

def batcher {α : Type} (l : List α) (size : Nat) : List (List α) :=
  batcherAux l.length l size

/-- The per-batch filter/sample/clean stage of ETL_TURBO.py lines 129-141:
returns the cleaned kept texts of the batch, in order, together with the
next unconsumed PRNG index (`random.random()` is consumed only when
`args.sample < 1.0`, thanks to `and` short-circuiting). -/
def buildTexts (targs : TArgs) (rng : Nat → ℚ) :
    List (Option (List Char)) → Nat → List (List Char) × Nat
  | [], i => ([], i)
  | ex :: rest, i =>
    let txt := ex.getD []
    if txt = [] then buildTexts targs rng rest i
    else if txt.length < targs.min_chars ∨ txt.length > targs.max_chars then
      buildTexts targs rng rest i
    else if targs.sample < 1 then
      if rng i > targs.sample then buildTexts targs rng rest (i + 1)
      else
        let r := buildTexts targs rng rest (i + 1)
        (clean_turbo txt :: r.1, r.2)
    else
      let r := buildTexts targs rng rest i
      (clean_turbo txt :: r.1, r.2)

/-- The emit loop of ETL_TURBO.py lines 150-162 over `zip(texts,
token_counts)`: skip zero counts, write the line, add to the total, and
return the moment the quota is met. -/
def turboInner (quota : Nat) : List (List Char × Nat) → Nat → TurboResult
  | [], c => ⟨c, [], false⟩
  | (t, n) :: rest, c =>
    if n = 0 then turboInner quota rest c
    else
      let c' := c + n
      if quota ≤ c' then ⟨c', [t], true⟩
      else
        let r := turboInner quota rest c'
        ⟨r.collected_tokens, t :: r.lines, r.by_quota⟩

/-- The batch loop of ETL_TURBO.py lines 128-162.  `tokT` is the tokenizer's
per-text count (`len(tok(texts)["input_ids"][i])`); a `return` from the
inner loop ends the whole run. -/
def turboBatches (targs : TArgs) (tokT : List Char → Nat) (rng : Nat → ℚ) :
    List (List (Option (List Char))) → Nat → Nat → TurboResult
  | [], c, _ => ⟨c, [], false⟩
  | batch :: more, c, i =>
    let b := buildTexts targs rng batch i
    if b.1 = [] then turboBatches targs tokT rng more c b.2
    else
      let token_counts := b.1.map tokT
      let r := turboInner targs.quota (b.1.zip token_counts) c
      if r.by_quota then r
      else
        let r2 := turboBatches targs tokT rng more r.collected_tokens b.2
        ⟨r2.collected_tokens, r.lines ++ r2.lines, r2.by_quota⟩

/-- A whole ETL_TURBO.py run: batch the corpus rows, start from zero
collected tokens and the beginning of the PRNG stream. -/
def turboRun (targs : TArgs) (tokT : List Char → Nat) (rng : Nat → ℚ)
    (rows : List (Option (List Char))) : TurboResult :=
  turboBatches targs tokT rng (batcher rows targs.batch_size) 0 0

/-! ### Token accounting helpers -/

/-- Total `n_tokens` of a list of output records. -/
def sumTok (l : List OutputRecord) : Nat :=
  (l.map OutputRecord.n_tokens).sum

/-- Modelled from the spec (amended trigger policy of §4.4): the checkpoint
writes a run performs, computed from the loaded tokens value and the token
counts of the successively emitted documents — a save happens exactly when
the updated total's quotient by 5,000,000 differs from the quotient of the
tokens value at the last save (initially the loaded value). -/
def specSaves (lastSaved tt dt : Nat) : List Nat → List CollectionState
  | [] => []
  | n :: rest =>
    if (tt + n) / 5000000 ≠ lastSaved / 5000000 then
      ⟨tt + n, dt + 1⟩ :: specSaves (tt + n) (tt + n) (dt + 1) rest
    else specSaves lastSaved (tt + n) (dt + 1) rest

/-! ### Run invariants of the ETL.py loop -/

theorem mainLoop_tokens_docs (args : Args) (detect : List Char → Option (List Char))
    (tok : List Char → Option Nat) (rows : List (Option (List Char))) :
    ∀ (tt dt : Nat) (st : CollectionState),
      (mainLoop args detect tok rows tt dt st).tokens_total
          = tt + sumTok (mainLoop args detect tok rows tt dt st).out ∧
      (mainLoop args detect tok rows tt dt st).docs_total
          = dt + (mainLoop args detect tok rows tt dt st).out.length := by
  induction rows with
  | nil => intro tt dt st; simp [mainLoop_nil, sumTok]
  | cons row rest ih =>
    intro tt dt st
    cases hp : processRow args detect tok row with
    | none => rw [mainLoop_cons_skip args detect tok row rest tt dt st hp]; exact ih tt dt st
    | some rcd =>
      rw [mainLoop_cons_emit args detect tok row rest tt dt st rcd hp]
      dsimp only
      split
      · simp [sumTok]
      · have h2 := ih (tt + rcd.n_tokens) (dt + 1) (saveStep (tt + rcd.n_tokens) (dt + 1) st).1
        simp only [sumTok, List.map_cons, List.sum_cons, List.length_cons] at h2 ⊢
        omega

theorem processRow_some_shape (args : Args) (detect : List Char → Option (List Char))
    (tok : List Char → Option Nat) (row : Option (List Char)) (rcd : OutputRecord)
    (hp : processRow args detect tok row = some rcd) :
    rcd = ⟨clean_text (row.getD []), token_count tok (clean_text (row.getD [])),
           args.repo⟩ ∧ rcd.n_tokens ≠ 0 ∧
      deterministic_sample rcd.text args.sample = true := by
  unfold processRow at hp
  dsimp only at hp
  split at hp
  · exact absurd hp (by simp)
  · split at hp
    · exact absurd hp (by simp)
    · rename_i hsamp
      split at hp
      · exact absurd hp (by simp)
      · split at hp
        · exact absurd hp (by simp)
        · simp only [Option.some.injEq] at hp
          subst hp
          refine ⟨rfl, by assumption, ?_⟩
          simpa using hsamp

theorem mainLoop_out_tokens_pos (args : Args) (detect : List Char → Option (List Char))
    (tok : List Char → Option Nat) (rows : List (Option (List Char))) :
    ∀ (tt dt : Nat) (st : CollectionState) (rcd : OutputRecord),
      rcd ∈ (mainLoop args detect tok rows tt dt st).out → rcd.n_tokens ≠ 0 := by
  induction rows with
  | nil => intro tt dt st rcd h; simp [mainLoop_nil] at h
  | cons row rest ih =>
    intro tt dt st rcd h
    cases hp : processRow args detect tok row with
    | none =>
      rw [mainLoop_cons_skip args detect tok row rest tt dt st hp] at h
      exact ih tt dt st rcd h
    | some r0 =>
      have hr0 : r0.n_tokens ≠ 0 := (processRow_some_shape args detect tok row r0 hp).2.1
      rw [mainLoop_cons_emit args detect tok row rest tt dt st r0 hp] at h
      dsimp only at h
      split at h
      · simp only [List.mem_singleton] at h
        subst h; exact hr0
      · simp only [List.mem_cons] at h
        rcases h with h | h
        · subst h; exact hr0
        · exact ih _ _ _ rcd h

theorem mainLoop_out_sampled (args : Args) (detect : List Char → Option (List Char))
    (tok : List Char → Option Nat) (rows : List (Option (List Char))) :
    ∀ (tt dt : Nat) (st : CollectionState) (rcd : OutputRecord),
      rcd ∈ (mainLoop args detect tok rows tt dt st).out →
      deterministic_sample rcd.text args.sample = true := by
  induction rows with
  | nil => intro tt dt st rcd h; simp [mainLoop_nil] at h
  | cons row rest ih =>
    intro tt dt st rcd h
    cases hp : processRow args detect tok row with
    | none =>
      rw [mainLoop_cons_skip args detect tok row rest tt dt st hp] at h
      exact ih tt dt st rcd h
    | some r0 =>
      have hr0 : deterministic_sample r0.text args.sample = true :=
        (processRow_some_shape args detect tok row r0 hp).2.2
      rw [mainLoop_cons_emit args detect tok row rest tt dt st r0 hp] at h
      dsimp only at h
      split at h
      · simp only [List.mem_singleton] at h
        subst h; exact hr0
      · simp only [List.mem_cons] at h
        rcases h with h | h
        · subst h; exact hr0
        · exact ih _ _ _ rcd h

theorem mainLoop_saves_refine (args : Args) (detect : List Char → Option (List Char))
    (tok : List Char → Option Nat) (rows : List (Option (List Char))) :
    ∀ (tt dt : Nat) (st : CollectionState),
      (mainLoop args detect tok rows tt dt st).saves
        = specSaves st.tokens tt dt
            ((mainLoop args detect tok rows tt dt st).out.map OutputRecord.n_tokens) := by
  induction rows with
  | nil => intro tt dt st; simp [mainLoop_nil, specSaves]
  | cons row rest ih =>
    intro tt dt st
    cases hp : processRow args detect tok row with
    | none => rw [mainLoop_cons_skip args detect tok row rest tt dt st hp]; exact ih tt dt st
    | some rcd =>
      rw [mainLoop_cons_emit args detect tok row rest tt dt st rcd hp]
      dsimp only
      split
      · simp only [List.map_cons, List.map_nil, specSaves, saveStep]
        split
        · simp [specSaves]
        · simp [specSaves]
      · simp only [List.map_cons, specSaves, saveStep]
        split
        · simp only [ih (tt + rcd.n_tokens) (dt + 1) ⟨tt + rcd.n_tokens, dt + 1⟩]
          rfl
        · simp only [ih (tt + rcd.n_tokens) (dt + 1) st]
          rfl

theorem mainLoop_quota_iff (args : Args) (detect : List Char → Option (List Char))
    (tok : List Char → Option Nat) (rows : List (Option (List Char))) :
    ∀ (tt dt : Nat) (st : CollectionState), tt < args.tokens →
      ((mainLoop args detect tok rows tt dt st).by_quota = true ↔
        args.tokens ≤ (mainLoop args detect tok rows tt dt st).tokens_total) := by
  induction rows with
  | nil => intro tt dt st hlt; simp [mainLoop_nil]; omega
  | cons row rest ih =>
    intro tt dt st hlt
    cases hp : processRow args detect tok row with
    | none => rw [mainLoop_cons_skip args detect tok row rest tt dt st hp]; exact ih tt dt st hlt
    | some rcd =>
      rw [mainLoop_cons_emit args detect tok row rest tt dt st rcd hp]
      dsimp only
      split
      · simpa
      · have hlt2 : tt + rcd.n_tokens < args.tokens := by omega
        exact ih (tt + rcd.n_tokens) (dt + 1) (saveStep (tt + rcd.n_tokens) (dt + 1) st).1 hlt2

theorem mainLoop_no_early_stop (args : Args) (detect : List Char → Option (List Char))
    (tok : List Char → Option Nat) (rows : List (Option (List Char))) :
    ∀ (tt dt : Nat) (st : CollectionState), tt < args.tokens →
      ∀ k, k < (mainLoop args detect tok rows tt dt st).out.length →
        tt + sumTok ((mainLoop args detect tok rows tt dt st).out.take k) < args.tokens := by
  induction rows with
  | nil => intro tt dt st hlt k hk; simp [mainLoop_nil] at hk
  | cons row rest ih =>
    intro tt dt st hlt k hk
    cases hp : processRow args detect tok row with
    | none =>
      rw [mainLoop_cons_skip args detect tok row rest tt dt st hp] at hk ⊢
      exact ih tt dt st hlt k hk
    | some rcd =>
      rw [mainLoop_cons_emit args detect tok row rest tt dt st rcd hp] at hk ⊢
      dsimp only at hk ⊢
      split at hk <;> split <;> try omega
      · simp only [List.length_singleton] at hk
        interval_cases k
        simpa [sumTok]
      · rename_i hq
        have hlt2 : tt + rcd.n_tokens < args.tokens := by omega
        cases k with
        | zero => simpa [sumTok]
        | succ j =>
          simp only [List.length_cons] at hk
          have hj := ih (tt + rcd.n_tokens) (dt + 1)
            (saveStep (tt + rcd.n_tokens) (dt + 1) st).1 hlt2 j (by omega)
          simp only [List.take_succ_cons, sumTok, List.map_cons, List.sum_cons] at hj ⊢
          omega
      
theorem mainLoop_excess (args : Args) (detect : List Char → Option (List Char))
    (tok : List Char → Option Nat) (rows : List (Option (List Char))) :
    ∀ (tt dt : Nat) (st : CollectionState), tt < args.tokens →
      (mainLoop args detect tok rows tt dt st).by_quota = true →
      ∃ last, (mainLoop args detect tok rows tt dt st).out.getLast? = some last ∧
        (mainLoop args detect tok rows tt dt st).tokens_total < args.tokens + last.n_tokens := by
  induction rows with
  | nil => intro tt dt st hlt hq; simp [mainLoop_nil] at hq
  | cons row rest ih =>
    intro tt dt st hlt hq
    cases hp : processRow args detect tok row with
    | none =>
      rw [mainLoop_cons_skip args detect tok row rest tt dt st hp] at hq ⊢
      exact ih tt dt st hlt hq
    | some rcd =>
      rw [mainLoop_cons_emit args detect tok row rest tt dt st rcd hp] at hq ⊢
      dsimp only at hq ⊢
      split at hq <;> split <;> try omega
      · refine ⟨rcd, rfl, ?_⟩
        show tt + rcd.n_tokens < args.tokens + rcd.n_tokens
        omega
      · rename_i hq2
        have hlt2 : tt + rcd.n_tokens < args.tokens := by omega
        obtain ⟨last, hl, hb⟩ := ih (tt + rcd.n_tokens) (dt + 1)
          (saveStep (tt + rcd.n_tokens) (dt + 1) st).1 hlt2 hq
        refine ⟨last, ?_, hb⟩
        exact Option.mem_def.mp (List.mem_getLast?_cons (Option.mem_def.mpr hl))

theorem mainLoop_saves_trace (args : Args) (detect : List Char → Option (List Char))
    (tok : List Char → Option Nat) (rows : List (Option (List Char))) :
    ∀ (tt dt : Nat) (st : CollectionState) (s : CollectionState),
      s ∈ (mainLoop args detect tok rows tt dt st).saves →
      ∃ k, k ≤ (mainLoop args detect tok rows tt dt st).out.length ∧
        s.tokens = tt + sumTok ((mainLoop args detect tok rows tt dt st).out.take k) ∧
        s.docs = dt + k := by
  induction rows with
  | nil => intro tt dt st s hs; simp [mainLoop_nil] at hs
  | cons row rest ih =>
    intro tt dt st s hs
    cases hp : processRow args detect tok row with
    | none =>
      rw [mainLoop_cons_skip args detect tok row rest tt dt st hp] at hs ⊢
      exact ih tt dt st s hs
    | some rcd =>
      rw [mainLoop_cons_emit args detect tok row rest tt dt st rcd hp] at hs ⊢
      dsimp only at hs ⊢
      split at hs <;> split <;> try omega
      · -- terminated by quota: saves is the saveStep output
        unfold saveStep at hs ⊢
        split at hs
        · simp only [List.mem_singleton] at hs
          subst hs
          exact ⟨1, by simp [sumTok]⟩
        · simp at hs
      · -- continued: either the saveStep save or a later one
        rename_i hq2
        simp only [List.mem_append] at hs
        rcases hs with hs | hs
        · unfold saveStep at hs
          split at hs
          · simp only [List.mem_singleton] at hs
            subst hs
            exact ⟨1, by simp [sumTok]⟩
          · simp at hs
        · obtain ⟨k, hk, ht, hd⟩ := ih (tt + rcd.n_tokens) (dt + 1)
            (saveStep (tt + rcd.n_tokens) (dt + 1) st).1 s hs
          refine ⟨k + 1, ?_, ?_, ?_⟩
          · simp only [List.length_cons]; omega
          · simp only [List.take_succ_cons, sumTok, List.map_cons, List.sum_cons] at ht ⊢
            omega
          · omega

/-! ### Run invariants of the ETL_TURBO.py loop -/

theorem mem_zip_map_self {α β : Type} (f : α → β) (l : List α) :
    ∀ p ∈ l.zip (l.map f), p.2 = f p.1 := by
  induction l with
  | nil => intro p hp; simp at hp
  | cons a t ih =>
    intro p hp
    simp only [List.map_cons, List.zip_cons_cons, List.mem_cons] at hp
    rcases hp with hp | hp
    · subst hp; rfl
    · exact ih p hp

theorem turboInner_collected (quota : Nat) (tokT : List Char → Nat)
    (pairs : List (List Char × Nat)) :
    ∀ c, (∀ p ∈ pairs, p.2 = tokT p.1) →
      (turboInner quota pairs c).collected_tokens
        = c + ((turboInner quota pairs c).lines.map tokT).sum := by
  induction pairs with
  | nil => intro c _; simp [turboInner]
  | cons p rest ih =>
    obtain ⟨t, n⟩ := p
    intro c hps
    have hn : n = tokT t := hps (t, n) (List.mem_cons_self _ _)
    have hrest : ∀ q ∈ rest, q.2 = tokT q.1 := fun q hq => hps q (List.mem_cons_of_mem _ hq)
    simp only [turboInner]
    split
    · exact ih c hrest
    · split
      · simp [hn]
      · have := ih (c + n) hrest
        simp only [List.map_cons, List.sum_cons] at this ⊢
        omega

theorem turboInner_quota_iff (quota : Nat) (tokT : List Char → Nat)
    (pairs : List (List Char × Nat)) :
    ∀ c, c < quota →
      ((turboInner quota pairs c).by_quota = true ↔
        quota ≤ (turboInner quota pairs c).collected_tokens) := by
  induction pairs with
  | nil => intro c hc; simp [turboInner]; omega
  | cons p rest ih =>
    obtain ⟨t, n⟩ := p
    intro c hc
    simp only [turboInner]
    split
    · exact ih c hc
    · split
      · simpa
      · exact ih (c + n) (by omega)

theorem turboInner_no_early (quota : Nat) (tokT : List Char → Nat)
    (pairs : List (List Char × Nat)) :
    ∀ c, c < quota → (∀ p ∈ pairs, p.2 = tokT p.1) →
      ∀ k, k < (turboInner quota pairs c).lines.length →
        c + (((turboInner quota pairs c).lines.take k).map tokT).sum < quota := by
  induction pairs with
  | nil => intro c hc _ k hk; simp [turboInner] at hk
  | cons p rest ih =>
    obtain ⟨t, n⟩ := p
    intro c hc hps k hk
    have hn : n = tokT t := hps (t, n) (List.mem_cons_self _ _)
    have hrest : ∀ q ∈ rest, q.2 = tokT q.1 := fun q hq => hps q (List.mem_cons_of_mem _ hq)
    by_cases h1 : n = 0
    · simp only [turboInner, if_pos h1] at hk ⊢
      exact ih c hc hrest k hk
    · by_cases h2 : quota ≤ c + n
      · simp only [turboInner, if_neg h1, if_pos h2, List.length_singleton] at hk ⊢
        interval_cases k
        simpa
      · simp only [turboInner, if_neg h1, if_neg h2, List.length_cons] at hk ⊢
        cases k with
        | zero => simpa
        | succ j =>
          have hj := ih (c + n) (by omega) hrest j (by omega)
          simp only [List.take_succ_cons, List.map_cons, List.sum_cons] at hj ⊢
          omega

theorem turboInner_excess (quota : Nat) (tokT : List Char → Nat)
    (pairs : List (List Char × Nat)) :
    ∀ c, c < quota → (∀ p ∈ pairs, p.2 = tokT p.1) →
      (turboInner quota pairs c).by_quota = true →
      ∃ last, (turboInner quota pairs c).lines.getLast? = some last ∧
        (turboInner quota pairs c).collected_tokens < quota + tokT last := by
  induction pairs with
  | nil => intro c hc _ hq; simp [turboInner] at hq
  | cons p rest ih =>
    obtain ⟨t, n⟩ := p
    intro c hc hps hq
    have hn : n = tokT t := hps (t, n) (List.mem_cons_self _ _)
    have hrest : ∀ q ∈ rest, q.2 = tokT q.1 := fun q hq2 => hps q (List.mem_cons_of_mem _ hq2)
    by_cases h1 : n = 0
    · simp only [turboInner, if_pos h1] at hq ⊢
      exact ih c hc hrest hq
    · by_cases h2 : quota ≤ c + n
      · simp only [turboInner, if_neg h1, if_pos h2] at hq ⊢
        exact ⟨t, rfl, by omega⟩
      · simp only [turboInner, if_neg h1, if_neg h2] at hq ⊢
        obtain ⟨last, hl, hb⟩ := ih (c + n) (by omega) hrest hq
        exact ⟨last, Option.mem_def.mp (List.mem_getLast?_cons (Option.mem_def.mpr hl)), hb⟩

theorem sum_take_le (l : List Nat) : ∀ k, (l.take k).sum ≤ l.sum := by
  induction l with
  | nil => intro k; simp
  | cons a t ih =>
    intro k
    cases k with
    | zero => simp
    | succ j =>
      simp only [List.take_succ_cons, List.sum_cons]
      exact Nat.add_le_add_left (ih j) a

theorem turboBatches_collected (targs : TArgs) (tokT : List Char → Nat)
    (rng : Nat → ℚ) (batches : List (List (Option (List Char)))) :
    ∀ c i, (turboBatches targs tokT rng batches c i).collected_tokens
        = c + ((turboBatches targs tokT rng batches c i).lines.map tokT).sum := by
  induction batches with
  | nil => intro c i; simp [turboBatches]
  | cons batch more ih =>
    intro c i
    by_cases hempty : (buildTexts targs rng batch i).1 = []
    · simp only [turboBatches, if_pos hempty]
      exact ih c (buildTexts targs rng batch i).2
    · have hpairs := mem_zip_map_self tokT (buildTexts targs rng batch i).1
      have hinner := turboInner_collected targs.quota tokT
        ((buildTexts targs rng batch i).1.zip ((buildTexts targs rng batch i).1.map tokT))
        c hpairs
      by_cases hq : (turboInner targs.quota
          ((buildTexts targs rng batch i).1.zip
            ((buildTexts targs rng batch i).1.map tokT)) c).by_quota = true
      · simp only [turboBatches, if_neg hempty, if_pos hq]
        exact hinner
      · simp only [turboBatches, if_neg hempty, if_neg hq]
        have h2 := ih (turboInner targs.quota
          ((buildTexts targs rng batch i).1.zip
            ((buildTexts targs rng batch i).1.map tokT)) c).collected_tokens
          (buildTexts targs rng batch i).2
        simp only [List.map_append, List.sum_append] at h2 ⊢
        omega

theorem turboBatches_quota_iff (targs : TArgs) (tokT : List Char → Nat)
    (rng : Nat → ℚ) (batches : List (List (Option (List Char)))) :
    ∀ c i, c < targs.quota →
      ((turboBatches targs tokT rng batches c i).by_quota = true ↔
        targs.quota ≤ (turboBatches targs tokT rng batches c i).collected_tokens) := by
  induction batches with
  | nil => intro c i hc; simp [turboBatches]; omega
  | cons batch more ih =>
    intro c i hc
    by_cases hempty : (buildTexts targs rng batch i).1 = []
    · simp only [turboBatches, if_pos hempty]
      exact ih c (buildTexts targs rng batch i).2 hc
    · have hiff := turboInner_quota_iff targs.quota tokT
        ((buildTexts targs rng batch i).1.zip
          ((buildTexts targs rng batch i).1.map tokT)) c hc
      by_cases hq : (turboInner targs.quota
          ((buildTexts targs rng batch i).1.zip
            ((buildTexts targs rng batch i).1.map tokT)) c).by_quota = true
      · simp only [turboBatches, if_neg hempty, if_pos hq]
        simp only [hq] at hiff
        simp [hq, ← hiff]
      · simp only [turboBatches, if_neg hempty, if_neg hq]
        have hlt : (turboInner targs.quota
            ((buildTexts targs rng batch i).1.zip
              ((buildTexts targs rng batch i).1.map tokT)) c).collected_tokens
            < targs.quota := by
          rcases Nat.lt_or_ge (turboInner targs.quota
            ((buildTexts targs rng batch i).1.zip
              ((buildTexts targs rng batch i).1.map tokT)) c).collected_tokens
            targs.quota with h | h
          · exact h
          · exact absurd (hiff.mpr h) hq
        exact ih _ (buildTexts targs rng batch i).2 hlt

theorem turboBatches_no_early (targs : TArgs) (tokT : List Char → Nat)
    (rng : Nat → ℚ) (batches : List (List (Option (List Char)))) :
    ∀ c i, c < targs.quota →
      ∀ k, k < (turboBatches targs tokT rng batches c i).lines.length →
        c + (((turboBatches targs tokT rng batches c i).lines.take k).map tokT).sum
          < targs.quota := by
  induction batches with
  | nil => intro c i hc k hk; simp [turboBatches] at hk
  | cons batch more ih =>
    intro c i hc k hk
    by_cases hempty : (buildTexts targs rng batch i).1 = []
    · simp only [turboBatches, if_pos hempty] at hk ⊢
      exact ih c (buildTexts targs rng batch i).2 hc k hk
    · have hpairs := mem_zip_map_self tokT (buildTexts targs rng batch i).1
      by_cases hq : (turboInner targs.quota
          ((buildTexts targs rng batch i).1.zip
            ((buildTexts targs rng batch i).1.map tokT)) c).by_quota = true
      · simp only [turboBatches, if_neg hempty, if_pos hq] at hk ⊢
        exact turboInner_no_early targs.quota tokT _ c hc hpairs k hk
      · simp only [turboBatches, if_neg hempty, if_neg hq] at hk ⊢
        have hinner := turboInner_collected targs.quota tokT
          ((buildTexts targs rng batch i).1.zip
            ((buildTexts targs rng batch i).1.map tokT)) c hpairs
        have hiff := turboInner_quota_iff targs.quota tokT
          ((buildTexts targs rng batch i).1.zip
            ((buildTexts targs rng batch i).1.map tokT)) c hc
        generalize hR : turboInner targs.quota
          ((buildTexts targs rng batch i).1.zip
            ((buildTexts targs rng batch i).1.map tokT)) c = R at hq hk hinner hiff ⊢
        have hlt : R.collected_tokens < targs.quota := by
          rcases Nat.lt_or_ge R.collected_tokens targs.quota with h | h
          · exact h
          · exact absurd (hiff.mpr h) hq
        rw [List.take_append_eq_append_take]
        simp only [List.map_append, List.sum_append]
        rcases le_or_lt k R.lines.length with hkle | hkgt
        · have h0 : k - R.lines.length = 0 := by omega
          rw [h0]
          simp only [List.take_zero, List.map_nil, List.sum_nil, Nat.add_zero]
          have hmono : ((R.lines.take k).map tokT).sum ≤ (R.lines.map tokT).sum := by
            rw [List.map_take]
            exact sum_take_le _ k
          omega
        · simp only [List.length_append] at hk
          rw [List.take_of_length_le (le_of_lt hkgt)]
          have hrec := ih R.collected_tokens (buildTexts targs rng batch i).2 hlt
            (k - R.lines.length) (by omega)
          omega

theorem turboBatches_excess (targs : TArgs) (tokT : List Char → Nat)
    (rng : Nat → ℚ) (batches : List (List (Option (List Char)))) :
    ∀ c i, c < targs.quota →
      (turboBatches targs tokT rng batches c i).by_quota = true →
      ∃ last, (turboBatches targs tokT rng batches c i).lines.getLast? = some last ∧
        (turboBatches targs tokT rng batches c i).collected_tokens
          < targs.quota + tokT last := by
  induction batches with
  | nil => intro c i hc hq; simp [turboBatches] at hq
  | cons batch more ih =>
    intro c i hc hq
    by_cases hempty : (buildTexts targs rng batch i).1 = []
    · simp only [turboBatches, if_pos hempty] at hq ⊢
      exact ih c (buildTexts targs rng batch i).2 hc hq
    · have hpairs := mem_zip_map_self tokT (buildTexts targs rng batch i).1
      by_cases hqin : (turboInner targs.quota
          ((buildTexts targs rng batch i).1.zip
            ((buildTexts targs rng batch i).1.map tokT)) c).by_quota = true
      · simp only [turboBatches, if_neg hempty, if_pos hqin]
        exact turboInner_excess targs.quota tokT _ c hc hpairs hqin
      · simp only [turboBatches, if_neg hempty, if_neg hqin] at hq ⊢
        have hiff := turboInner_quota_iff targs.quota tokT
          ((buildTexts targs rng batch i).1.zip
            ((buildTexts targs rng batch i).1.map tokT)) c hc
        generalize hR : turboInner targs.quota
          ((buildTexts targs rng batch i).1.zip
            ((buildTexts targs rng batch i).1.map tokT)) c = R at hqin hq hiff ⊢
        have hlt : R.collected_tokens < targs.quota := by
          rcases Nat.lt_or_ge R.collected_tokens targs.quota with h | h
          · exact h
          · exact absurd (hiff.mpr h) hqin
        obtain ⟨last, hl, hb⟩ := ih R.collected_tokens
          (buildTexts targs rng batch i).2 hlt hq
        refine ⟨last, ?_, hb⟩
        have hne : (turboBatches targs tokT rng more R.collected_tokens
            (buildTexts targs rng batch i).2).lines ≠ [] := by
          intro hnil
          rw [hnil] at hl
          simp at hl
        rw [List.getLast?_append_of_ne_nil _ hne]
        exact hl

/-! ### Idempotence of the cleaning functions -/

theorem pyStrip_eq_rdropWhile (l : List Char) :
    pyStrip l = (l.dropWhile pyIsSpace).rdropWhile pyIsSpace := rfl

theorem dropWhile_head_not {α : Type} (p : α → Bool) (l : List α) :
    ∀ b u, l.dropWhile p = b :: u → p b = false := by
  induction l with
  | nil => intro b u h; simp at h
  | cons a t ih =>
    intro b u h
    rw [List.dropWhile_cons] at h
    split at h
    · exact ih b u h
    · rename_i hpa
      cases h
      simpa using hpa

theorem pyStrip_idem (l : List Char) : pyStrip (pyStrip l) = pyStrip l := by
  rw [pyStrip_eq_rdropWhile, pyStrip_eq_rdropWhile]
  have h1 : ((l.dropWhile pyIsSpace).rdropWhile pyIsSpace).dropWhile pyIsSpace
      = (l.dropWhile pyIsSpace).rdropWhile pyIsSpace := by
    rcases hR : (l.dropWhile pyIsSpace).rdropWhile pyIsSpace with _ | ⟨b, u⟩
    · rfl
    · obtain ⟨t2, ht2⟩ := List.rdropWhile_prefix pyIsSpace (l.dropWhile pyIsSpace)
      rw [hR] at ht2
      have hb : pyIsSpace b = false :=
        dropWhile_head_not pyIsSpace l b (u ++ t2) (by rw [← ht2]; rfl)
      rw [List.dropWhile_cons, hb]
      simp
  rw [h1, List.rdropWhile_idempotent]

theorem mem_of_mem_dropWhile {α : Type} (p : α → Bool) (l : List α) :
    ∀ x ∈ l.dropWhile p, x ∈ l := by
  induction l with
  | nil => simp
  | cons a t ih =>
    intro x hx
    rw [List.dropWhile_cons] at hx
    split at hx
    · exact List.mem_cons_of_mem _ (ih x hx)
    · exact hx

theorem mem_of_mem_pyStrip (l : List Char) : ∀ x ∈ pyStrip l, x ∈ l := by
  intro x hx
  unfold pyStrip at hx
  rw [List.mem_reverse] at hx
  have h2 := mem_of_mem_dropWhile pyIsSpace (l.dropWhile pyIsSpace).reverse x hx
  rw [List.mem_reverse] at h2
  exact mem_of_mem_dropWhile pyIsSpace l x h2

theorem replaceChar_not_mem (a b : Char) (hab : b ≠ a) (l : List Char) :
    ∀ c ∈ replaceChar a b l, c ≠ a := by
  intro c hc
  unfold replaceChar at hc
  rw [List.mem_map] at hc
  obtain ⟨d, _, hde⟩ := hc
  subst hde
  split
  · exact hab
  · assumption

theorem replaceChar_preserve (a b : Char) (P : Char → Prop) (hb : P b) :
    ∀ l : List Char, (∀ c ∈ l, P c) → ∀ c ∈ replaceChar a b l, P c := by
  intro l h c hc
  unfold replaceChar at hc
  rw [List.mem_map] at hc
  obtain ⟨d, hd, hde⟩ := hc
  subst hde
  split
  · exact hb
  · exact h d hd

theorem replaceChar_eq_self (a b : Char) :
    ∀ l : List Char, (∀ c ∈ l, c ≠ a) → replaceChar a b l = l := by
  intro l
  induction l with
  | nil => intro _; rfl
  | cons d t ih =>
    intro h
    have hd : d ≠ a := h d (List.mem_cons_self _ _)
    unfold replaceChar at ih ⊢
    simp only [List.map_cons, if_neg hd]
    rw [ih (fun c hc => h c (List.mem_cons_of_mem _ hc))]

theorem pyStrip_map_comm (f : Char → Char)
    (hf : ∀ c, pyIsSpace (f c) = pyIsSpace c) (l : List Char) :
    pyStrip (l.map f) = (pyStrip l).map f := by
  have hcomp : (pyIsSpace ∘ f) = pyIsSpace := funext hf
  unfold pyStrip
  rw [List.dropWhile_map f pyIsSpace l, hcomp, ← List.map_reverse,
    List.dropWhile_map f pyIsSpace, hcomp, ← List.map_reverse]

theorem clean_text_idem (t : List Char) : clean_text (clean_text t) = clean_text t := by
  unfold clean_text
  have hr : ∀ c ∈ replaceChar '\t' ' ' (replaceChar '\r' ' ' t), c ≠ '\r' :=
    replaceChar_preserve '\t' ' ' (fun c => c ≠ '\r') (by decide) _
      (replaceChar_not_mem '\r' ' ' (by decide) t)
  have ht : ∀ c ∈ replaceChar '\t' ' ' (replaceChar '\r' ' ' t), c ≠ '\t' :=
    replaceChar_not_mem '\t' ' ' (by decide) _
  have h3 : ∀ c ∈ pyStrip (replaceChar '\t' ' ' (replaceChar '\r' ' ' t)), c ≠ '\r' :=
    fun c hc => hr c (mem_of_mem_pyStrip _ c hc)
  have h4 : ∀ c ∈ pyStrip (replaceChar '\t' ' ' (replaceChar '\r' ' ' t)), c ≠ '\t' :=
    fun c hc => ht c (mem_of_mem_pyStrip _ c hc)
  rw [replaceChar_eq_self '\r' ' ' _ h3, replaceChar_eq_self '\t' ' ' _ h4]
  exact pyStrip_idem _

theorem clean_turbo_idem (t : List Char) : clean_turbo (clean_turbo t) = clean_turbo t := by
  unfold clean_turbo replaceChar
  have hf : ∀ c : Char, pyIsSpace (if c = '\n' then ' ' else c) = pyIsSpace c := by
    intro c
    by_cases hc : c = '\n'
    · subst hc; decide
    · rw [if_neg hc]
  rw [pyStrip_map_comm _ hf (pyStrip t), pyStrip_idem, List.map_map]
  have hff : ((fun c => if c = '\n' then ' ' else c) ∘ fun c => if c = '\n' then ' ' else c)
      = fun c : Char => if c = '\n' then ' ' else c := by
    funext c
    simp only [Function.comp]
    split
    · simp
    · rfl
  rw [hff]

/-! ### Range facts about the sampler -/

theorem md5Words_fst_lt (msg : List Nat) : (md5Words msg).1 < 4294967296 := by
  unfold md5Words
  generalize chunk64 (md5Pad msg) = chunks
  induction chunks using List.reverseRecOn with
  | nil => norm_num
  | append_singleton l b _ =>
    rw [List.foldl_append]
    unfold md5Block
    exact Nat.mod_lt _ (by norm_num)

theorem md5Leading32_le (msg : List Nat) : md5Leading32 msg ≤ 4294967295 := by
  unfold md5Leading32 byteswap32
  have h := md5Words_fst_lt msg
  omega

theorem mkRat_md5_eq (text : List Char) :
    mkRat (md5Leading32 (utf8Encode text)) 4294967295
      = (md5Leading32 (utf8Encode text) : ℚ) / 4294967295 := by
  rw [Rat.mkRat_eq_div]
  push_cast
  ring

theorem deterministic_sample_zero (text : List Char) :
    deterministic_sample text 0 = false := by
  unfold deterministic_sample
  rw [decide_eq_false_iff_not, mkRat_md5_eq]
  push_neg
  positivity

theorem deterministic_sample_gt_one (text : List Char) (p : ℚ) (hp : 1 < p) :
    deterministic_sample text p = true := by
  unfold deterministic_sample
  rw [decide_eq_true_eq, mkRat_md5_eq]
  have hle : (md5Leading32 (utf8Encode text) : ℚ) / 4294967295 ≤ 1 := by
    rw [div_le_one (by norm_num)]
    exact_mod_cast md5Leading32_le (utf8Encode text)
  linarith

theorem deterministic_sample_one_iff (text : List Char) :
    deterministic_sample text 1 = true ↔
      md5Leading32 (utf8Encode text) ≠ 4294967295 := by
  unfold deterministic_sample
  rw [decide_eq_true_eq, mkRat_md5_eq, div_lt_one (by norm_num)]
  constructor
  · intro h
    intro heq
    rw [heq] at h
    norm_num at h
  · intro h
    have hle := md5Leading32_le (utf8Encode text)
    have : (md5Leading32 (utf8Encode text) : ℚ) ≠ 4294967295 := by exact_mod_cast h
    have : (md5Leading32 (utf8Encode text) : ℚ) ≤ 4294967295 := by exact_mod_cast hle
    rcases lt_or_eq_of_le this with h2 | h2
    · exact h2
    · exact absurd (by exact_mod_cast h2) h

/-- A concrete text whose MD5 digest begins with eight `f` hex digits
(`hashlib.md5` of the ASCII bytes of `etl2457090453` is
`ffffffffcbbe32d4ca322ebd82c11109`), so its normalized hash value is
exactly 1.0. -/
def hashEdgeText : List Char :=
  ['e', 't', 'l', '2', '4', '5', '7', '0', '9', '0', '4', '5', '3']

/-! ### Checkpoint store: `save_state` / `load_state` with the JSON payload
modelled down to the digit level -/

/-- Decimal representation of a natural number as characters, exactly what
`json.dump` writes for a Python int (structural on fuel; `fuel = n + 1`
always suffices since the argument shrinks by a factor of ten). -/
def natReprAux : Nat → Nat → List Char
  | 0, _ => []
  | fuel + 1, n =>
    if n < 10 then [Char.ofNat (48 + n)]
    else natReprAux fuel (n / 10) ++ [Char.ofNat (48 + n % 10)]

/-- Decimal representation of a natural number. -/
def natRepr (n : Nat) : List Char := natReprAux (n + 1) n

/-- ASCII decimal digit test. -/
def isDigitChar (c : Char) : Bool := decide (48 ≤ c.toNat ∧ c.toNat ≤ 57)

/-- Value of a digit string (how an int parser accumulates digits). -/
def digitsVal (l : List Char) : Nat :=
  l.foldl (fun acc c => acc * 10 + (c.toNat - 48)) 0

/-- Strip an expected literal from the front of the input. -/
def dropExact : List Char → List Char → Option (List Char)
  | [], s => some s
  | _ :: _, [] => none
  | c :: cs, d :: ds => if c = d then dropExact cs ds else none

/-- The opening-brace character. -/
def lbrace : Char := Char.ofNat 123

/-- The closing-brace character. -/
def rbrace : Char := Char.ofNat 125

/-- The literal `json.dump` emits before the tokens value. -/
def jsonHead : List Char :=
  [lbrace, '\x22', 't', 'o', 'k', 'e', 'n', 's', '\x22', ':', ' ']

/-- The literal `json.dump` emits between the two values. -/
def jsonMid : List Char :=
  [',', ' ', '\x22', 'd', 'o', 'c', 's', '\x22', ':', ' ']

/-- The serialized checkpoint file content:
`json.dump({"tokens": N, "docs": M})`. -/
def dumpState (st : CollectionState) : List Char :=
  jsonHead ++ natRepr st.tokens ++ jsonMid ++ natRepr st.docs ++ [rbrace]

/-- Parse a leading run of digits, returning its value and the rest;
fails when no digit is present. -/
def parseNatPart (s : List Char) : Option (Nat × List Char) :=
  let ds := s.takeWhile isDigitChar
  if ds = [] then none else some (digitsVal ds, s.dropWhile isDigitChar)

/-- Parse the checkpoint JSON payload `\x7b"tokens": N, "docs": M\x7d`
(the exact shape `json.dump` produces for the state dictionary). -/
def parseStateJson (s : List Char) : Option CollectionState :=
  match dropExact jsonHead s with
  | none => none
  | some s1 =>
    match parseNatPart s1 with
    | none => none
    | some (n, s2) =>
      match dropExact jsonMid s2 with
      | none => none
      | some s3 =>
        match parseNatPart s3 with
        | none => none
        | some (m, s4) => if s4 = [rbrace] then some ⟨n, m⟩ else none

/-- `load_state` from ETL.py: a missing path yields the zero state, an
existing file is parsed as JSON (a parse failure raises, modelled as
`Except.error`).  The file system is a map from paths to contents. -/
def load_state (fs : List Char → Option (List Char)) (path : List Char) :
    Except Unit CollectionState :=
  match fs path with
  | none => Except.ok ⟨0, 0⟩
  | some content =>
    match parseStateJson content with
    | some st => Except.ok st
    | none => Except.error ()

/-- `save_state` from ETL.py: overwrite the path with the serialized state. -/
def save_state (fs : List Char → Option (List Char)) (path : List Char)
    (state : CollectionState) : List Char → Option (List Char) :=
  fun q => if q = path then some (dumpState state) else fs q

/-! ### Output sink open modes -/

/-- Contents visible in a file right after `open(path, mode)`: write mode
truncates, append mode preserves what was there. -/
def openContents {α : Type} (mode : List Char) (prior : List α) : List α :=
  if mode = ['w'] then [] else prior

/-- ETL.py line 120 opens the sink with `gzip.open(args.out, "at", ...)`. -/
def etlOutMode : List Char := ['a', 't']

/-- ETL_TURBO.py line 127 opens the sink with `open(args.out, "w", ...)`. -/
def turboOutMode : List Char := ['w']

/-- The output file of an ETL.py run given its prior contents. -/
def etlFinalFile (prior : List OutputRecord) (r : RunResult) : List OutputRecord :=
  openContents etlOutMode prior ++ r.out

/-- The output file of an ETL_TURBO.py run given its prior contents. -/
def turboFinalFile (prior : List (List Char)) (r : TurboResult) : List (List Char) :=
  openContents turboOutMode prior ++ r.lines

/-! ### The two sampling decisions as state transformers

Both are given the ambient PRNG stream and position; ETL.py's decision
reads neither, ETL_TURBO.py's reads and advances the position. -/

/-- ETL.py's per-document sampling decision (`true` = keep): pure in the
ambient PRNG state. -/
def etlSampleStep (text : List Char) (p : ℚ) (_rng : Nat → ℚ) (i : Nat) :
    Bool × Nat :=
  (deterministic_sample text p, i)

/-- ETL_TURBO.py's per-document sampling decision (line 137,
`args.sample < 1.0 and random.random() > args.sample` causes a skip):
consumes the next PRNG value whenever `p < 1`. -/
def turboSampleStep (_text : List Char) (p : ℚ) (rng : Nat → ℚ) (i : Nat) :
    Bool × Nat :=
  if p < 1 then (decide (¬ rng i > p), i + 1) else (true, i)

/-! ### Round-trip of the checkpoint serialization -/

theorem digitsVal_append_singleton (l : List Char) (c : Char) :
    digitsVal (l ++ [c]) = digitsVal l * 10 + (c.toNat - 48) := by
  simp [digitsVal, List.foldl_append]

theorem char_digit_toNat (d : Nat) (hd : d < 10) :
    (Char.ofNat (48 + d)).toNat = 48 + d := by
  interval_cases d <;> decide

theorem natReprAux_spec : ∀ fuel n, n < fuel →
    natReprAux fuel n ≠ [] ∧ (∀ c ∈ natReprAux fuel n, isDigitChar c = true) ∧
      digitsVal (natReprAux fuel n) = n := by
  intro fuel
  induction fuel with
  | zero => intro n hn; omega
  | succ fuel ih =>
    intro n hn
    by_cases h10 : n < 10
    · unfold natReprAux
      rw [if_pos h10]
      refine ⟨by simp, ?_, ?_⟩
      · intro c hc
        simp only [List.mem_singleton] at hc
        subst hc
        simp only [isDigitChar, char_digit_toNat n h10]
        rw [decide_eq_true_eq]
        omega
      · simp only [digitsVal, List.foldl_cons, List.foldl_nil, char_digit_toNat n h10]
        omega
    · have hdiv : n / 10 < fuel := by
        have h1 : n / 10 < n := Nat.div_lt_self (by omega) (by omega)
        omega
      obtain ⟨hne, hdig, hval⟩ := ih (n / 10) hdiv
      unfold natReprAux
      rw [if_neg h10]
      refine ⟨by simp, ?_, ?_⟩
      · intro c hc
        rw [List.mem_append] at hc
        rcases hc with hc | hc
        · exact hdig c hc
        · simp only [List.mem_singleton] at hc
          subst hc
          simp only [isDigitChar, char_digit_toNat (n % 10) (Nat.mod_lt _ (by omega))]
          rw [decide_eq_true_eq]
          omega
      · rw [digitsVal_append_singleton, hval,
          char_digit_toNat (n % 10) (Nat.mod_lt _ (by omega))]
        omega

theorem natRepr_spec (n : Nat) :
    natRepr n ≠ [] ∧ (∀ c ∈ natRepr n, isDigitChar c = true) ∧
      digitsVal (natRepr n) = n :=
  natReprAux_spec (n + 1) n (Nat.lt_succ_self n)

theorem dropExact_append (pat rest : List Char) :
    dropExact pat (pat ++ rest) = some rest := by
  induction pat with
  | nil => rfl
  | cons c cs ih => simp [dropExact, ih]

theorem takeWhile_digits_append (l r : List Char)
    (hl : ∀ c ∈ l, isDigitChar c = true)
    (hr : ∀ c u, r = c :: u → isDigitChar c = false) :
    (l ++ r).takeWhile isDigitChar = l ∧ (l ++ r).dropWhile isDigitChar = r := by
  induction l with
  | nil =>
    rcases hrr : r with _ | ⟨c, u⟩
    · simp
    · simp [List.takeWhile_cons, List.dropWhile_cons, hr c u hrr]
  | cons a t ih =>
    have ha : isDigitChar a = true := hl a (List.mem_cons_self _ _)
    have iht := ih (fun c hc => hl c (List.mem_cons_of_mem _ hc))
    simp [List.takeWhile_cons, List.dropWhile_cons, ha, iht.1, iht.2]

theorem parseNatPart_repr (n : Nat) (r : List Char)
    (hr : ∀ c u, r = c :: u → isDigitChar c = false) :
    parseNatPart (natRepr n ++ r) = some (n, r) := by
  obtain ⟨hne, hdig, hval⟩ := natRepr_spec n
  obtain ⟨htake, hdrop⟩ := takeWhile_digits_append (natRepr n) r hdig hr
  simp only [parseNatPart, htake, hdrop, if_neg hne, hval]

theorem parseStateJson_dumpState (st : CollectionState) :
    parseStateJson (dumpState st) = some st := by
  have hmid : ∀ c u, (jsonMid ++ (natRepr st.docs ++ [rbrace])) = c :: u →
      isDigitChar c = false := by
    intro c u h
    simp only [jsonMid, List.cons_append, List.cons.injEq] at h
    rw [← h.1]
    decide
  have hend : ∀ c u, ([rbrace] : List Char) = c :: u → isDigitChar c = false := by
    intro c u h
    simp only [List.cons.injEq] at h
    rw [← h.1]
    decide
  have hshape : dumpState st
      = jsonHead ++ (natRepr st.tokens ++ (jsonMid ++ (natRepr st.docs ++ [rbrace]))) := by
    simp [dumpState, List.append_assoc]
  rw [parseStateJson, hshape, dropExact_append]
  dsimp only
  rw [parseNatPart_repr st.tokens _ hmid]
  dsimp only
  rw [dropExact_append]
  dsimp only
  rw [parseNatPart_repr st.docs _ hend]
  simp

theorem load_save_roundtrip (fs : List Char → Option (List Char))
    (path : List Char) (st : CollectionState) :
    load_state (save_state fs path st) path = Except.ok st := by
  unfold load_state save_state
  rw [if_pos rfl]
  dsimp only
  rw [parseStateJson_dumpState]

theorem load_missing (fs : List Char → Option (List Char)) (path : List Char)
    (h : fs path = none) : load_state fs path = Except.ok ⟨0, 0⟩ := by
  unfold load_state
  rw [h]

/-! ### Remaining helpers -/

theorem sumTok_take_mono (out : List OutputRecord) (k k2 : Nat) (h : k ≤ k2) :
    sumTok (out.take k) ≤ sumTok (out.take k2) := by
  unfold sumTok
  rw [List.map_take, List.map_take]
  have hmin : min k k2 = k := min_eq_left h
  calc ((out.map OutputRecord.n_tokens).take k).sum
      = (((out.map OutputRecord.n_tokens).take k2).take k).sum := by
        rw [List.take_take, hmin]
    _ ≤ ((out.map OutputRecord.n_tokens).take k2).sum := sum_take_le _ k

theorem processRow_zero_tok (args : Args) (detect : List Char → Option (List Char))
    (tok : List Char → Option Nat) (row : Option (List Char))
    (h : token_count tok (clean_text (row.getD [])) = 0) :
    processRow args detect tok row = none := by
  unfold processRow
  dsimp only
  split
  · rfl
  · split
    · rfl
    · split
      · rfl
      · simp [h]

/-! ### Concrete configurations used by the witnesses and counterexamples -/

def demoArgs : Args := ⟨1, 1000, 2, none, 50, ['r']⟩

def demoDetect : List Char → Option (List Char) := fun _ => none

def demoTok : List Char → Option Nat := fun _ => some 30

def demoRows : List (Option (List Char)) :=
  [some ['h', 'e', 'l', 'l', 'o'], some ['w', 'o', 'r', 'l', 'd']]

def demoTargs : TArgs := ⟨50, 1, 1000, 1, 4⟩

def demoTokT : List Char → Nat := fun _ => 30

def demoRng : Nat → ℚ := fun _ => 0

def argsBig : Args := ⟨1, 1000, 2, none, 20000000, ['r']⟩

def tokBig : List Char → Option Nat :=
  fun t => if t = ['h', 'e', 'l', 'l', 'o'] then some 6000000 else some 1000000

def targsHalf : TArgs := ⟨100, 1, 100, mkRat 1 2, 256⟩

def spacedText : List Char := [' ', ' ', 'a', 'b', 'c', ' ', ' ', ' ']

/-! ### The claims -/

/-- C1: ETL.py's sampling decision is a pure function of the text and the
probability — it reads no ambient state, and every emitted record of a run
passed `deterministic_sample` on its own text (so the decision is
reproducible at any loop position and from any starting totals).
ETL_TURBO.py's sampling decision, in contrast, is a function of the PRNG
state and the threshold alone — it does not depend on the text at all. -/
theorem claim_C1_sampling_purity :
    (∀ (text : List Char) (p : ℚ) (rng1 rng2 : Nat → ℚ) (i1 i2 : Nat),
      (etlSampleStep text p rng1 i1).1 = (etlSampleStep text p rng2 i2).1) ∧
    (∀ (args : Args) (detect : List Char → Option (List Char))
        (tok : List Char → Option Nat) (rows : List (Option (List Char)))
        (tt dt : Nat) (st : CollectionState) (rcd : OutputRecord),
      rcd ∈ (mainLoop args detect tok rows tt dt st).out →
        deterministic_sample rcd.text args.sample = true) ∧
    (∀ (t1 t2 : List Char) (p : ℚ) (rng : Nat → ℚ) (i : Nat),
      turboSampleStep t1 p rng i = turboSampleStep t2 p rng i) :=
  ⟨fun _ _ _ _ _ _ => rfl,
   fun args detect tok rows tt dt st rcd h =>
     mainLoop_out_sampled args detect tok rows tt dt st rcd h,
   fun _ _ _ _ _ => rfl⟩

/-- C1 witness: the first record of a concrete run was emitted and indeed
passed the deterministic sampler. -/
theorem claim_C1_witness :
    (⟨['h', 'e', 'l', 'l', 'o'], 30, ['r']⟩ : OutputRecord)
        ∈ (mainRun demoArgs demoDetect demoTok demoRows ⟨0, 0⟩).out ∧
    deterministic_sample ['h', 'e', 'l', 'l', 'o'] demoArgs.sample = true := by
  refine ⟨by decide, ?_⟩
  exact claim_C1_sampling_purity.2.1 demoArgs demoDetect demoTok demoRows 0 0 ⟨0, 0⟩
    ⟨['h', 'e', 'l', 'l', 'o'], 30, ['r']⟩ (by decide)

/-- C1 counterexample: in ETL_TURBO.py the same text with the same sampling
probability is kept under one PRNG stream and dropped under another, so the
decision depends on prior PRNG state, not only on the text and `p`. -/
theorem claim_C1_counterexample :
    (buildTexts targsHalf (fun _ => 0) [some ['a', 'b', 'c', 'd', 'e', 'f']] 0).1
      ≠ (buildTexts targsHalf (fun _ => 1) [some ['a', 'b', 'c', 'd', 'e', 'f']] 0).1 := by
  decide

/-- C2: `p = 0` rejects every text; `p > 1` accepts every text; at `p = 1`
a text is accepted exactly when the leading 32 bits of its MD5 are not
`0xffffffff` (the normalized value is `h / 0xffffffff`, which reaches 1.0). -/
theorem claim_C2_sampler_edge_cases (text : List Char) (p : ℚ) :
    deterministic_sample text 0 = false ∧
    (1 < p → deterministic_sample text p = true) ∧
    (deterministic_sample text 1 = true ↔
      md5Leading32 (utf8Encode text) ≠ 4294967295) :=
  ⟨deterministic_sample_zero text, deterministic_sample_gt_one text p,
   deterministic_sample_one_iff text⟩

/-- C2 witness at `text = "a"`, `p = 2`. -/
theorem claim_C2_witness :
    (1 : ℚ) < 2 ∧ deterministic_sample ['a'] 0 = false ∧
      deterministic_sample ['a'] 2 = true := by
  refine ⟨by norm_num, (claim_C2_sampler_edge_cases ['a'] 2).1, ?_⟩
  exact (claim_C2_sampler_edge_cases ['a'] 2).2.1 (by norm_num)

/-- C2 counterexample: the text `etl2457090453` hashes to
`ffffffff…`, so at `p = 1` (which the claim includes in `p ≥ 1`) it is
rejected: `v = 0xffffffff / 0xffffffff = 1.0` and `1.0 < 1` is false. -/
theorem claim_C2_counterexample : deterministic_sample hashEdgeText 1 = false := by
  have hm : md5Leading32 (utf8Encode hashEdgeText) = 4294967295 := by decide
  rcases Bool.eq_false_or_eq_true (deterministic_sample hashEdgeText 1) with h | h
  · exact absurd hm (by simpa using (deterministic_sample_one_iff hashEdgeText).mp h)
  · exact h

/-- C4: a checkpoint is saved exactly when the updated `tokens_total`
crosses a 5,000,000 boundary relative to the tokens value at the *last
save* — initially the loaded value, not the start-of-run value throughout:
the run's saves refine `specSaves`, which re-bases its reference at every
save. -/
theorem claim_C4_checkpoint_trigger (args : Args)
    (detect : List Char → Option (List Char)) (tok : List Char → Option Nat)
    (rows : List (Option (List Char))) (loaded : CollectionState) :
    (mainRun args detect tok rows loaded).saves
      = specSaves loaded.tokens loaded.tokens loaded.docs
          ((mainRun args detect tok rows loaded).out.map OutputRecord.n_tokens) :=
  mainLoop_saves_refine args detect tok rows loaded.tokens loaded.docs loaded

/-- C4 counterexample: after emitting documents of 6,000,000 and 1,000,000
tokens from a zero checkpoint, only one save is written (at 6,000,000),
although the claim's start-of-run reading (`7000000 / 5000000 ≠ 0 / 5000000`)
demands a second save at the 7,000,000 point. -/
theorem claim_C4_counterexample :
    (mainRun argsBig demoDetect tokBig demoRows ⟨0, 0⟩).saves = [⟨6000000, 1⟩] ∧
    (mainRun argsBig demoDetect tokBig demoRows ⟨0, 0⟩).out.map OutputRecord.n_tokens
      = [6000000, 1000000] ∧
    (6000000 + 1000000) / 5000000 ≠ (0 : Nat) / 5000000 := by
  refine ⟨by decide, by decide, by decide⟩

/-- C5: saving a checkpoint and loading it back from the same path returns
exactly the saved state, and loading a nonexistent path yields
`\x7btokens: 0, docs: 0\x7d` without failing. -/
theorem claim_C5_checkpoint_roundtrip :
    (∀ (fs : List Char → Option (List Char)) (path : List Char)
        (st : CollectionState),
      load_state (save_state fs path st) path = Except.ok st) ∧
    (∀ (fs : List Char → Option (List Char)) (path : List Char),
      fs path = none → load_state fs path = Except.ok ⟨0, 0⟩) :=
  ⟨load_save_roundtrip, load_missing⟩

/-- C5 witness on an empty file system at path `"c"` with state
`\x7btokens: 12, docs: 3\x7d`. -/
theorem claim_C5_witness :
    load_state (save_state (fun _ => none) ['c'] ⟨12, 3⟩) ['c'] = Except.ok ⟨12, 3⟩ ∧
    load_state (fun _ => none) ['c'] = Except.ok ⟨0, 0⟩ :=
  ⟨claim_C5_checkpoint_roundtrip.1 (fun _ => none) ['c'] ⟨12, 3⟩,
   claim_C5_checkpoint_roundtrip.2 (fun _ => none) ['c'] rfl⟩

/-- C6: a tokenizer failure makes `token_count` return 0; every record a
run writes has a nonzero token count; and a document whose token count is
0 leaves the run exactly as if the document had not been streamed at all
(nothing written, `tokens_total` and `docs_total` unchanged). -/
theorem claim_C6_zero_token_drop :
    (∀ (tok : List Char → Option Nat) (text : List Char),
      tok text = none → token_count tok text = 0) ∧
    (∀ (args : Args) (detect : List Char → Option (List Char))
        (tok : List Char → Option Nat) (rows : List (Option (List Char)))
        (tt dt : Nat) (st : CollectionState) (rcd : OutputRecord),
      rcd ∈ (mainLoop args detect tok rows tt dt st).out → rcd.n_tokens ≠ 0) ∧
    (∀ (args : Args) (detect : List Char → Option (List Char))
        (tok : List Char → Option Nat) (row : Option (List Char))
        (rest : List (Option (List Char))) (tt dt : Nat) (st : CollectionState),
      token_count tok (clean_text (row.getD [])) = 0 →
        mainLoop args detect tok (row :: rest) tt dt st
          = mainLoop args detect tok rest tt dt st) := by
  refine ⟨?_, ?_, ?_⟩
  · intro tok text h
    simp [token_count, h]
  · intro args detect tok rows tt dt st rcd h
    exact mainLoop_out_tokens_pos args detect tok rows tt dt st rcd h
  · intro args detect tok row rest tt dt st h
    exact mainLoop_cons_skip args detect tok row rest tt dt st
      (processRow_zero_tok args detect tok row h)

/-- C6 witness: a failing tokenizer gives count 0 and the loop over the
single document equals the loop over nothing. -/
theorem claim_C6_witness :
    token_count (fun _ => none) ['x'] = 0 ∧
    mainLoop demoArgs demoDetect (fun _ => none) [some ['h', 'i']] 0 0 ⟨0, 0⟩
      = mainLoop demoArgs demoDetect (fun _ => none) [] 0 0 ⟨0, 0⟩ := by
  refine ⟨claim_C6_zero_token_drop.1 (fun _ => none) ['x'] rfl, ?_⟩
  exact claim_C6_zero_token_drop.2.2 demoArgs demoDetect (fun _ => none)
    (some ['h', 'i']) [] 0 0 ⟨0, 0⟩ rfl

/-- C7: both cleaning functions are idempotent on arbitrary input. -/
theorem claim_C7_cleaning_idempotent (t : List Char) :
    clean_text (clean_text t) = clean_text t ∧
    clean_turbo (clean_turbo t) = clean_turbo t :=
  ⟨clean_text_idem t, clean_turbo_idem t⟩

/-- C9: ETL.py's sink is opened in append mode, so the final file is the
prior contents followed by this run's records; ETL_TURBO.py opens its sink
in write mode, so the final file is this run's lines alone — prior contents
are discarded, not preserved. -/
theorem claim_C9_output_modes :
    (∀ (prior : List OutputRecord) (args : Args)
        (detect : List Char → Option (List Char)) (tok : List Char → Option Nat)
        (rows : List (Option (List Char))) (loaded : CollectionState),
      etlFinalFile prior (mainRun args detect tok rows loaded)
        = prior ++ (mainRun args detect tok rows loaded).out) ∧
    (∀ (prior : List (List Char)) (targs : TArgs) (tokT : List Char → Nat)
        (rng : Nat → ℚ) (rows : List (Option (List Char))),
      turboFinalFile prior (turboRun targs tokT rng rows)
        = (turboRun targs tokT rng rows).lines) := by
  constructor
  · intro prior args detect tok rows loaded
    unfold etlFinalFile openContents
    rw [if_neg (by decide)]
  · intro prior targs tokT rng rows
    unfold turboFinalFile openContents turboOutMode
    simp

/-- C9 counterexample: a record already in the TURBO output file is gone
after a run — the `"w"` open truncates, so prior output is deleted rather
than accumulated. -/
theorem claim_C9_counterexample :
    turboFinalFile [['x']] (turboRun demoTargs demoTokT demoRng []) = [] ∧
    ¬ (['x'] : List Char) ∈ turboFinalFile [['x']] (turboRun demoTargs demoTokT demoRng []) := by
  decide

/-- C10: over any run of ETL.py's loop, the final `tokens_total` is the
loaded tokens plus the sum of the `n_tokens` of the records written this
run, `docs_total` is the loaded docs plus the number of records written,
and every checkpoint saved holds exactly the totals in memory at its save
point — the loaded values plus the contribution of the records emitted up
to that point. -/
theorem claim_C10_run_accounting (args : Args)
    (detect : List Char → Option (List Char)) (tok : List Char → Option Nat)
    (rows : List (Option (List Char))) (loaded : CollectionState) :
    (mainRun args detect tok rows loaded).tokens_total
        = loaded.tokens + sumTok (mainRun args detect tok rows loaded).out ∧
    (mainRun args detect tok rows loaded).docs_total
        = loaded.docs + (mainRun args detect tok rows loaded).out.length ∧
    (∀ s ∈ (mainRun args detect tok rows loaded).saves,
      ∃ k, k ≤ (mainRun args detect tok rows loaded).out.length ∧
        s.tokens = loaded.tokens + sumTok ((mainRun args detect tok rows loaded).out.take k) ∧
        s.docs = loaded.docs + k) :=
  ⟨(mainLoop_tokens_docs args detect tok rows loaded.tokens loaded.docs loaded).1,
   (mainLoop_tokens_docs args detect tok rows loaded.tokens loaded.docs loaded).2,
   fun s hs =>
     mainLoop_saves_trace args detect tok rows loaded.tokens loaded.docs loaded s hs⟩

/-- C10 witness: in the 6M/1M run the single saved checkpoint decomposes as
the totals after the first emitted record. -/
theorem claim_C10_witness :
    (⟨6000000, 1⟩ : CollectionState)
        ∈ (mainRun argsBig demoDetect tokBig demoRows ⟨0, 0⟩).saves ∧
    (∃ k, k ≤ (mainRun argsBig demoDetect tokBig demoRows ⟨0, 0⟩).out.length ∧
      (6000000 : Nat)
          = 0 + sumTok ((mainRun argsBig demoDetect tokBig demoRows ⟨0, 0⟩).out.take k) ∧
      (1 : Nat) = 0 + k) := by
  refine ⟨by decide, ?_⟩
  exact (claim_C10_run_accounting argsBig demoDetect tokBig demoRows ⟨0, 0⟩).2.2
    ⟨6000000, 1⟩ (by decide)

/-- C3 (amended): provided the run starts below the quota (loaded tokens
below `args.tokens` for ETL.py; a positive quota for ETL_TURBO.py, which
always starts at zero), the running total equals the initial value plus the
emitted records' counts, prefix totals are non-decreasing, the run ends by
quota exactly when the final total reaches the quota (never earlier: every
proper prefix of the emissions stays below it), and the final total
overshoots the quota by less than the last emitted document's token count.
Without the below-quota start the code keeps collecting until one more
document is emitted, so the claim's bound fails (see the counterexample). -/
theorem claim_C3_quota_termination (args : Args)
    (detect : List Char → Option (List Char)) (tok : List Char → Option Nat)
    (rows : List (Option (List Char))) (loaded : CollectionState)
    (targs : TArgs) (tokT : List Char → Nat) (rng : Nat → ℚ)
    (rows2 : List (Option (List Char)))
    (hE : loaded.tokens < args.tokens) (hT : 0 < targs.quota) :
    ((mainRun args detect tok rows loaded).tokens_total
        = loaded.tokens + sumTok (mainRun args detect tok rows loaded).out) ∧
    (∀ k k2, k ≤ k2 →
      loaded.tokens + sumTok ((mainRun args detect tok rows loaded).out.take k)
        ≤ loaded.tokens + sumTok ((mainRun args detect tok rows loaded).out.take k2)) ∧
    ((mainRun args detect tok rows loaded).by_quota = true ↔
      args.tokens ≤ (mainRun args detect tok rows loaded).tokens_total) ∧
    (∀ k, k < (mainRun args detect tok rows loaded).out.length →
      loaded.tokens + sumTok ((mainRun args detect tok rows loaded).out.take k)
        < args.tokens) ∧
    ((mainRun args detect tok rows loaded).by_quota = true →
      ∃ last, (mainRun args detect tok rows loaded).out.getLast? = some last ∧
        (mainRun args detect tok rows loaded).tokens_total
          < args.tokens + last.n_tokens) ∧
    ((turboRun targs tokT rng rows2).collected_tokens
        = ((turboRun targs tokT rng rows2).lines.map tokT).sum) ∧
    ((turboRun targs tokT rng rows2).by_quota = true ↔
      targs.quota ≤ (turboRun targs tokT rng rows2).collected_tokens) ∧
    (∀ k, k < (turboRun targs tokT rng rows2).lines.length →
      (((turboRun targs tokT rng rows2).lines.take k).map tokT).sum < targs.quota) ∧
    ((turboRun targs tokT rng rows2).by_quota = true →
      ∃ last, (turboRun targs tokT rng rows2).lines.getLast? = some last ∧
        (turboRun targs tokT rng rows2).collected_tokens
          < targs.quota + tokT last) := by
  refine ⟨?_, ?_, ?_, ?_, ?_, ?_, ?_, ?_, ?_⟩
  · exact (mainLoop_tokens_docs args detect tok rows loaded.tokens loaded.docs loaded).1
  · intro k k2 hk
    exact Nat.add_le_add_left
      (sumTok_take_mono (mainRun args detect tok rows loaded).out k k2 hk) _
  · exact mainLoop_quota_iff args detect tok rows loaded.tokens loaded.docs loaded hE
  · exact mainLoop_no_early_stop args detect tok rows loaded.tokens loaded.docs loaded hE
  · exact mainLoop_excess args detect tok rows loaded.tokens loaded.docs loaded hE
  · have h := turboBatches_collected targs tokT rng (batcher rows2 targs.batch_size) 0 0
    simpa [turboRun] using h
  · exact turboBatches_quota_iff targs tokT rng (batcher rows2 targs.batch_size) 0 0 hT
  · intro k hk
    have h := turboBatches_no_early targs tokT rng (batcher rows2 targs.batch_size)
      0 0 hT k hk
    simpa using h
  · intro hq
    exact turboBatches_excess targs tokT rng (batcher rows2 targs.batch_size) 0 0 hT hq

/-- C3 witness: both concrete runs start below quota, both terminate by
quota, and both reach it. -/
theorem claim_C3_witness :
    (⟨0, 0⟩ : CollectionState).tokens < demoArgs.tokens ∧ 0 < demoTargs.quota ∧
    (mainRun demoArgs demoDetect demoTok demoRows ⟨0, 0⟩).by_quota = true ∧
    (turboRun demoTargs demoTokT demoRng demoRows).by_quota = true := by
  have h := claim_C3_quota_termination demoArgs demoDetect demoTok demoRows ⟨0, 0⟩
    demoTargs demoTokT demoRng demoRows (by decide) (by decide)
  refine ⟨by decide, by decide, ?_, ?_⟩
  · exact h.2.2.1.mpr (by decide)
  · exact h.2.2.2.2.2.2.1.mpr (by decide)

/-- C3 counterexample: resumed from a checkpoint already past the quota
(100 loaded tokens against a quota of 50), the loop does not stop at the
first iteration at which `tokens_total >= quota` — it still emits one more
document and finishes at 130 tokens, exceeding the quota by 80, far more
than the emitted document's 30 tokens. -/
theorem claim_C3_counterexample :
    (mainRun demoArgs demoDetect demoTok [some ['h', 'e', 'l', 'l', 'o']]
        ⟨100, 0⟩).by_quota = true ∧
    (mainRun demoArgs demoDetect demoTok [some ['h', 'e', 'l', 'l', 'o']]
        ⟨100, 0⟩).out.map OutputRecord.n_tokens = [30] ∧
    (mainRun demoArgs demoDetect demoTok [some ['h', 'e', 'l', 'l', 'o']]
        ⟨100, 0⟩).tokens_total = 130 ∧
    demoArgs.tokens = 50 ∧ ¬(130 - 50 ≤ 30) := by
  refine ⟨by decide, by decide, by decide, by decide, by decide⟩

/-- C8 (amended): ETL.py's length gate passes a document exactly when the
*cleaned* text's length is within the inclusive bounds (shown on a
single-document run with all other stages made permissive);
ETL_TURBO.py's length gate instead tests the *raw* text — a document passes
exactly when the raw text is nonempty and its raw length is within the
inclusive bounds, even if the cleaned text is shorter than `min_chars`. -/
theorem claim_C8_length_gate :
    (∀ (mn mx : Nat) (detect : List Char → Option (List Char))
        (text : List Char) (n : Nat), n ≠ 0 →
      ((mainRun ⟨mn, mx, 2, none, 1, ['r']⟩ detect (fun _ => some n)
          [some text] ⟨0, 0⟩).out ≠ [] ↔
        (mn ≤ (clean_text text).length ∧ (clean_text text).length ≤ mx))) ∧
    (∀ (q mn mx bs : Nat) (rng : Nat → ℚ) (txt : List Char) (i : Nat),
      ((buildTexts ⟨q, mn, mx, 1, bs⟩ rng [some txt] i).1 ≠ [] ↔
        (txt ≠ [] ∧ mn ≤ txt.length ∧ txt.length ≤ mx))) := by
  constructor
  · intro mn mx detect text n hn
    by_cases hg : (clean_text text).length < mn ∨ (clean_text text).length > mx
    · have hp : processRow ⟨mn, mx, 2, none, 1, ['r']⟩ detect (fun _ => some n)
          (some text) = none := by
        unfold processRow
        dsimp only
        simp only [Option.getD_some]
        rw [if_pos hg]
      rw [show mainRun ⟨mn, mx, 2, none, 1, ['r']⟩ detect (fun _ => some n)
            [some text] ⟨0, 0⟩
          = mainLoop ⟨mn, mx, 2, none, 1, ['r']⟩ detect (fun _ => some n)
            [some text] 0 0 ⟨0, 0⟩ from rfl,
        mainLoop_cons_skip _ _ _ _ _ _ _ _ hp, mainLoop_nil]
      simp only [ne_eq, not_true_eq_false, false_iff, not_and]
      intro h1
      omega
    · push_neg at hg
      have hds : deterministic_sample (clean_text text) (2 : ℚ) = true :=
        deterministic_sample_gt_one _ 2 (by norm_num)
      have hp : processRow ⟨mn, mx, 2, none, 1, ['r']⟩ detect (fun _ => some n)
          (some text) = some ⟨clean_text text, n, ['r']⟩ := by
        unfold processRow
        dsimp only
        simp only [Option.getD_some]
        rw [if_neg (by omega : ¬((clean_text text).length < mn ∨
          (clean_text text).length > mx)), hds]
        simp [langReject, token_count, hn]
      rw [show mainRun ⟨mn, mx, 2, none, 1, ['r']⟩ detect (fun _ => some n)
            [some text] ⟨0, 0⟩
          = mainLoop ⟨mn, mx, 2, none, 1, ['r']⟩ detect (fun _ => some n)
            [some text] 0 0 ⟨0, 0⟩ from rfl,
        mainLoop_cons_emit _ _ _ _ _ _ _ _ _ hp]
      dsimp only
      rw [if_pos (show (1 : Nat) ≤ 0 + n by omega)]
      constructor
      · intro _
        exact hg
      · intro _
        simp
  · intro q mn mx bs rng txt i
    by_cases h0 : txt = []
    · have hb : buildTexts ⟨q, mn, mx, 1, bs⟩ rng [some txt] i = ([], i) := by
        unfold buildTexts
        dsimp only
        simp only [Option.getD_some]
        rw [if_pos h0]
        rfl
      rw [hb]
      simp [h0]
    · by_cases hg : txt.length < mn ∨ txt.length > mx
      · have hb : buildTexts ⟨q, mn, mx, 1, bs⟩ rng [some txt] i = ([], i) := by
          unfold buildTexts
          dsimp only
          simp only [Option.getD_some]
          rw [if_neg h0, if_pos hg]
          rfl
        rw [hb]
        simp only [ne_eq, not_true_eq_false, false_iff, not_and]
        intro h1 h2
        omega
      · have hb : buildTexts ⟨q, mn, mx, 1, bs⟩ rng [some txt] i
            = ([clean_turbo txt], i) := by
          unfold buildTexts
          dsimp only
          simp only [Option.getD_some]
          rw [if_neg h0, if_neg hg, if_neg (lt_irrefl (1 : ℚ))]
          rfl
        rw [hb]
        push_neg at hg
        constructor
        · intro _
          exact ⟨h0, hg.1, hg.2⟩
        · intro _
          simp

/-- C8 witness: on a single in-bounds document with a 30-token count, the
ETL.py gate characterization holds. -/
theorem claim_C8_witness :
    (30 : Nat) ≠ 0 ∧
    ((mainRun ⟨1, 1000, 2, none, 1, ['r']⟩ demoDetect (fun _ => some 30)
        [some ['h', 'e', 'l', 'l', 'o']] ⟨0, 0⟩).out ≠ [] ↔
      (1 ≤ (clean_text ['h', 'e', 'l', 'l', 'o']).length ∧
        (clean_text ['h', 'e', 'l', 'l', 'o']).length ≤ 1000)) :=
  ⟨by decide,
   claim_C8_length_gate.1 1 1000 demoDetect ['h', 'e', 'l', 'l', 'o'] 30 (by decide)⟩

/-- C8 counterexample: ETL_TURBO.py keeps a document whose raw length (8)
is within the bounds `[5, 100]` although its cleaned text (`abc`) is
shorter than `min_chars = 5` — the claim's cleaned-length gate would have
rejected it. -/
theorem claim_C8_counterexample :
    (buildTexts ⟨50, 5, 100, 1, 4⟩ (fun _ => 0) [some spacedText] 0).1
      = [['a', 'b', 'c']] ∧
    (clean_turbo spacedText).length < 5 := by
  refine ⟨by decide, by decide⟩
